import Mathlib

/-!
Shallow embedding of `src/vga_buffer.rs`: a VGA text-mode buffer driver with a
`Writer` that tracks a column position, writes bytes into the last row of a
memory-mapped grid, wraps lines and scrolls the grid upwards.

Machine integers are modelled as `Nat` (bytes stay below 256 throughout; the
one arithmetic spot where u8 overflow could matter, `ColorCode::new`, takes a
`% 256`).  The volatile cell array `Buffer` is modelled as a total function
from (row, column) to `ScreenChar`, with `bufWrite` as the functional update
corresponding to `Volatile::write`.
-/

namespace VgaBuffer

/-- The 16 hardware colors, `#[repr(u8)]` with `Black = 0 … White = 15`. -/
inductive Color where
  | Black
  | Blue
  | Green
  | Cyan
  | Red
  | Magenta
  | Brown
  | LightGray
  | DarkGray
  | LightBlue
  | LightGreen
  | LightCyan
  | LightRed
  | Pink
  | Yellow
  | White
deriving DecidableEq

/-- The `Color as u8` cast: the discriminant of the `#[repr(u8)]` enum. -/
def Color.toU8 : Color → Nat
  | .Black => 0
  | .Blue => 1
  | .Green => 2
  | .Cyan => 3
  | .Red => 4
  | .Magenta => 5
  | .Brown => 6
  | .LightGray => 7
  | .DarkGray => 8
  | .LightBlue => 9
  | .LightGreen => 10
  | .LightCyan => 11
  | .LightRed => 12
  | .Pink => 13
  | .Yellow => 14
  | .White => 15

/-- `struct ColorCode(u8)`. -/
structure ColorCode where
  code : Nat
deriving DecidableEq

/-- `ColorCode::new`: `ColorCode((background as u8) << 4 | (foreground as u8))`,
as u8 arithmetic (hence the `% 256`). -/
def ColorCode.new (foreground background : Color) : ColorCode :=
  ⟨((background.toU8 <<< 4) ||| foreground.toU8) % 256⟩

/-- `struct ScreenChar { ascii_character: u8, color_code: ColorCode }`. -/
structure ScreenChar where
  ascii_character : Nat
  color_code : ColorCode
deriving DecidableEq

/-- `const BUFFER_WIDTH: usize = 25;` (sic: the source swaps the conventional
width/height values). -/
def BUFFER_WIDTH : Nat := 25

/-- `const BUFFER_HEIGHT: usize = 80;` (sic). -/
def BUFFER_HEIGHT : Nat := 80

/-- The cell grid `chars: [[Volatile<ScreenChar>; BUFFER_WIDTH]; BUFFER_HEIGHT]`,
modelled as a total function (row, column) → cell.  The Writer only ever
touches rows `< BUFFER_HEIGHT` and columns `< BUFFER_WIDTH`. -/
def Buffer := Nat → Nat → ScreenChar

/-- `Volatile::write` of one cell, as a functional update. -/
def bufWrite (b : Buffer) (row col : Nat) (v : ScreenChar) : Buffer :=
  fun r c => if r = row then (if c = col then v else b r c) else b r c

/-- `pub struct Writer { column_position, color_code, buffer }`. -/
structure Writer where
  column_position : Nat
  color_code : ColorCode
  buffer : Buffer

/-- `Writer::clear_row`: overwrite every cell of `row` with a blank
`ScreenChar` (space, current color). -/
def Writer.clear_row (self : Writer) (row : Nat) : Writer :=
  let blank : ScreenChar := { ascii_character := 32, color_code := self.color_code }
  { self with
    buffer := (List.range BUFFER_WIDTH).foldl (fun b col => bufWrite b row col blank) self.buffer }

/-- `Writer::new_line`: for `row in 1..BUFFER_HEIGHT`, `col in 0..BUFFER_WIDTH`,
copy cell `(row, col)` (read from the current, already partially shifted
buffer, exactly as the source does) into `(row - 1, col)`; then clear the last
row and reset `column_position` to 0. -/
def Writer.new_line (self : Writer) : Writer :=
  let shifted : Buffer := (List.range' 1 (BUFFER_HEIGHT - 1)).foldl
    (fun b row => (List.range BUFFER_WIDTH).foldl
      (fun b2 col =>
        let character := b2 row col
        bufWrite b2 (row - 1) col character) b)
    self.buffer
  let self2 := Writer.clear_row { self with buffer := shifted } (BUFFER_HEIGHT - 1)
  { self2 with column_position := 0 }

/-- `Writer::write_byte`: newline (byte 10) scrolls; any other byte wraps
first when `column_position >= BUFFER_WIDTH`, then is written with the current
color into row `BUFFER_HEIGHT - 1` at the current column, which is then
incremented. -/
def Writer.write_byte (self : Writer) (byte : Nat) : Writer :=
  if byte = 10 then
    self.new_line
  else
    let self1 := if self.column_position ≥ BUFFER_WIDTH then self.new_line else self
    let row := BUFFER_HEIGHT - 1
    let col := self1.column_position
    let color_code := self1.color_code
    let self2 := { self1 with
      buffer := bufWrite self1.buffer row col
        { ascii_character := byte, color_code := color_code } }
    { self2 with column_position := self2.column_position + 1 }

/-- `Writer::write_string`: iterate the raw bytes; printable ASCII
`0x20..=0x7e` and newline pass through, every other byte becomes `0xfe`. -/
def Writer.write_string (self : Writer) (s : List Nat) : Writer :=
  s.foldl
    (fun w byte =>
      if (0x20 ≤ byte ∧ byte ≤ 0x7e) ∨ byte = 10 then w.write_byte byte
      else w.write_byte 0xfe)
    self

/-- `impl fmt::Write for Writer { fn write_str }`: forwards to `write_string`
and returns `Ok(())`.  `fmt::Result = Result<(), fmt::Error>` is modelled as
`Except Unit Unit`. -/
def Writer.write_str (self : Writer) (s : List Nat) : Writer × Except Unit Unit :=
  (self.write_string s, Except.ok ())

/-- Modelled from the spec: `core::fmt::Write::write_fmt` is library code not
in this repository; per the spec it drives the writer with pre-formatted
string slices, so it is modelled as folding `write_str` over a list of
fragments, stopping at the first error. -/
def Writer.write_fmt (self : Writer) (frags : List (List Nat)) : Writer × Except Unit Unit :=
  frags.foldl
    (fun acc s =>
      match acc.2 with
      | Except.error _ => acc
      | Except.ok _ => acc.1.write_str s)
    (self, Except.ok ())

/-- A blank cell as produced by `clear_row`. -/
def blankChar (cc : ColorCode) : ScreenChar := ⟨32, cc⟩

/-- The byte classification performed inside `write_string`, as a function
(spec side, for the refinement statement of C4). -/
def classify (byte : Nat) : Nat :=
  if (0x20 ≤ byte ∧ byte ≤ 0x7e) ∨ byte = 10 then byte else 0xfe

/-- Plain byte-by-byte writing, with no classification (spec side, C4). -/
def writeBytes (w : Writer) (l : List Nat) : Writer :=
  l.foldl Writer.write_byte w

/-- A concrete Writer in the initial state of the global `WRITER` singleton
(column 0, yellow on black), over an all-blank grid. -/
def sampleWriter : Writer :=
  { column_position := 0
    color_code := ColorCode.new Color.Yellow Color.Black
    buffer := fun _ _ => blankChar (ColorCode.new Color.Yellow Color.Black) }

/-- Every cell character byte the driver ever produces: printable ASCII or
the placeholder `0xfe`. -/
def charByteOk (sc : ScreenChar) : Prop :=
  (0x20 ≤ sc.ascii_character ∧ sc.ascii_character ≤ 0x7e) ∨ sc.ascii_character = 0xfe

instance (sc : ScreenChar) : Decidable (charByteOk sc) := by
  unfold charByteOk; infer_instance

/-- All cells of a writer's buffer satisfy `charByteOk`. -/
def bufferOk (w : Writer) : Prop := ∀ r c, charByteOk (w.buffer r c)

/-- One public Writer call, for stating properties of arbitrary call
sequences. -/
inductive Op where
  | byte (b : Nat)
  | str (s : List Nat)
  | line

/-- Run one call on a writer. -/
def applyOp (w : Writer) : Op → Writer
  | Op.byte b => w.write_byte b
  | Op.str s => w.write_string s
  | Op.line => w.new_line

/-- Run a sequence of calls on a writer. -/
def runOps (w : Writer) (ops : List Op) : Writer := ops.foldl applyOp w

/-! ### Basic facts about the embedding -/

theorem buffer_width_eq : BUFFER_WIDTH = 25 := rfl

theorem buffer_height_eq : BUFFER_HEIGHT = 80 := rfl

theorem bufWrite_apply (b : Buffer) (row col : Nat) (v : ScreenChar) (r c : Nat) :
    bufWrite b row col v r c = if r = row ∧ c = col then v else b r c := by
  unfold bufWrite
  by_cases hr : r = row <;> by_cases hc : c = col <;> simp [hr, hc]

/-- A fold writing the same value `v` across the columns of `l` in `row`
(the loop body of `clear_row`). -/
theorem foldl_write_const (l : List Nat) (b : Buffer) (row : Nat) (v : ScreenChar)
    (r c : Nat) :
    (l.foldl (fun b2 col => bufWrite b2 row col v) b) r c
      = if r = row ∧ c ∈ l then v else b r c := by
  induction l generalizing b with
  | nil => simp
  | cons a t ih =>
    simp only [List.foldl_cons, ih, bufWrite_apply, List.mem_cons]
    by_cases hr : r = row <;> by_cases hc : c = a <;>
      by_cases hm : c ∈ t <;> simp [hr, hc, hm]

/-- One pass of the shifting loop of `new_line`: for a fixed source row
`row ≥ 1`, copy each listed column of `row` into `row - 1`.  The reads happen
on the evolving buffer, but since `row - 1 ≠ row` they always see the original
content of `row`. -/
theorem foldl_shift_row (row : Nat) (hrow : 1 ≤ row) (l : List Nat) (b : Buffer)
    (r c : Nat) :
    (l.foldl (fun b2 col => bufWrite b2 (row - 1) col (b2 row col)) b) r c
      = if r = row - 1 ∧ c ∈ l then b row c else b r c := by
  induction l generalizing b with
  | nil => simp
  | cons a t ih =>
    have hne : row ≠ row - 1 := by omega
    simp only [List.foldl_cons, ih, bufWrite_apply, List.mem_cons]
    by_cases hr : r = row - 1 <;> by_cases hc : c = a <;>
      by_cases hm : c ∈ t <;> simp [hr, hc, hm, hne]

/-- The full shifting loop of `new_line` over rows `1 .. n`: every row
`r < n` ends up holding the original content of row `r + 1` (in the touched
columns), everything else is untouched. -/
theorem foldl_shift_all (n : Nat) (b : Buffer) (r c : Nat) :
    ((List.range' 1 n).foldl
      (fun b2 row => (List.range BUFFER_WIDTH).foldl
        (fun b3 col => bufWrite b3 (row - 1) col (b3 row col)) b2) b) r c
      = if r < n ∧ c < BUFFER_WIDTH then b (r + 1) c else b r c := by
  induction n generalizing r c with
  | zero => simp
  | succ m ih =>
    rw [List.range'_1_concat, List.foldl_append]
    simp only [List.foldl_cons, List.foldl_nil]
    rw [foldl_shift_row (1 + m) (by omega)]
    simp only [List.mem_range, ih]
    have h1m : 1 + m - 1 = m := by omega
    rw [h1m]
    by_cases hr : r = m <;> by_cases hc : c < BUFFER_WIDTH
    · have : ¬ (1 + m < m) := by omega
      simp [hr, hc, this, Nat.add_comm 1 m]
    · simp [hr, hc]
    · have hrm : r < m ↔ r < m + 1 := by omega
      simp [hr, hc, hrm]
    · simp [hr, hc]

/-! ### Characterizations of the Writer operations -/

theorem clear_row_buffer (w : Writer) (row r c : Nat) :
    (w.clear_row row).buffer r c
      = if r = row ∧ c < BUFFER_WIDTH then blankChar w.color_code else w.buffer r c := by
  simp only [Writer.clear_row]
  rw [foldl_write_const]
  simp [List.mem_range, blankChar]

theorem clear_row_column (w : Writer) (row : Nat) :
    (w.clear_row row).column_position = w.column_position := rfl

theorem clear_row_color (w : Writer) (row : Nat) :
    (w.clear_row row).color_code = w.color_code := rfl

theorem new_line_column (w : Writer) : (w.new_line).column_position = 0 := rfl

theorem new_line_color (w : Writer) : (w.new_line).color_code = w.color_code := rfl

theorem new_line_buffer (w : Writer) (r c : Nat) :
    (w.new_line).buffer r c
      = if r = BUFFER_HEIGHT - 1 ∧ c < BUFFER_WIDTH then blankChar w.color_code
        else if r < BUFFER_HEIGHT - 1 ∧ c < BUFFER_WIDTH then w.buffer (r + 1) c
        else w.buffer r c := by
  show (Writer.clear_row _ (BUFFER_HEIGHT - 1)).buffer r c = _
  rw [clear_row_buffer]
  by_cases h1 : r = BUFFER_HEIGHT - 1 ∧ c < BUFFER_WIDTH
  · simp [h1]
  · simp only [if_neg h1]
    show (List.range' 1 (BUFFER_HEIGHT - 1)).foldl _ w.buffer r c = _
    rw [foldl_shift_all]

theorem write_byte_newline (w : Writer) : w.write_byte 10 = w.new_line := rfl

theorem write_byte_no_wrap (w : Writer) (b : Nat) (hb : b ≠ 10)
    (hcol : w.column_position < BUFFER_WIDTH) :
    w.write_byte b = { w with
      buffer := bufWrite w.buffer (BUFFER_HEIGHT - 1) w.column_position
        ⟨b, w.color_code⟩,
      column_position := w.column_position + 1 } := by
  simp only [Writer.write_byte, if_neg hb, ge_iff_le, if_neg (Nat.not_le.mpr hcol)]

theorem write_byte_wrap (w : Writer) (b : Nat) (hb : b ≠ 10)
    (hcol : BUFFER_WIDTH ≤ w.column_position) :
    w.write_byte b = { w.new_line with
      buffer := bufWrite (w.new_line).buffer (BUFFER_HEIGHT - 1) 0 ⟨b, w.color_code⟩,
      column_position := 1 } := by
  simp only [Writer.write_byte, if_neg hb, ge_iff_le, if_pos hcol,
    new_line_column, new_line_color]

theorem write_byte_color (w : Writer) (b : Nat) :
    (w.write_byte b).color_code = w.color_code := by
  by_cases hb : b = 10
  · subst hb; rw [write_byte_newline, new_line_color]
  · by_cases hcol : w.column_position < BUFFER_WIDTH
    · rw [write_byte_no_wrap w b hb hcol]
    · rw [write_byte_wrap w b hb (Nat.not_lt.mp hcol)]; rfl

theorem write_byte_buffer_no_wrap (w : Writer) (b : Nat) (hb : b ≠ 10)
    (hcol : w.column_position < BUFFER_WIDTH) :
    (w.write_byte b).buffer
      = bufWrite w.buffer (BUFFER_HEIGHT - 1) w.column_position ⟨b, w.color_code⟩ := by
  rw [write_byte_no_wrap w b hb hcol]

theorem write_byte_buffer_wrap (w : Writer) (b : Nat) (hb : b ≠ 10)
    (hcol : BUFFER_WIDTH ≤ w.column_position) :
    (w.write_byte b).buffer
      = bufWrite (w.new_line).buffer (BUFFER_HEIGHT - 1) 0 ⟨b, w.color_code⟩ := by
  rw [write_byte_wrap w b hb hcol]

theorem write_byte_column (w : Writer) (b : Nat) :
    (w.write_byte b).column_position
      = if b = 10 then 0
        else if w.column_position < BUFFER_WIDTH then w.column_position + 1
        else 1 := by
  by_cases hb : b = 10
  · subst hb; rw [write_byte_newline, new_line_column]; simp
  · by_cases hcol : w.column_position < BUFFER_WIDTH
    · rw [write_byte_no_wrap w b hb hcol]; simp [hb, hcol]
    · rw [write_byte_wrap w b hb (Nat.not_lt.mp hcol)]; simp [hb, hcol]

theorem write_byte_column_le (w : Writer) (b : Nat) :
    (w.write_byte b).column_position ≤ BUFFER_WIDTH := by
  have hw : BUFFER_WIDTH = 25 := rfl
  rw [write_byte_column]
  split
  · omega
  · split <;> omega

theorem write_string_nil (w : Writer) : w.write_string [] = w := rfl

theorem write_string_cons (w : Writer) (b : Nat) (t : List Nat) :
    w.write_string (b :: t) = (w.write_byte (classify b)).write_string t := by
  by_cases h : (0x20 ≤ b ∧ b ≤ 0x7e) ∨ b = 10 <;>
    simp [Writer.write_string, classify, h]

theorem write_string_column_le (w : Writer) (s : List Nat)
    (h : w.column_position ≤ BUFFER_WIDTH) :
    (w.write_string s).column_position ≤ BUFFER_WIDTH := by
  induction s generalizing w with
  | nil => exact h
  | cons b t ih => rw [write_string_cons]; exact ih _ (write_byte_column_le w (classify b))

/-! ### The character-byte invariant -/

theorem charByteOk_blank (cc : ColorCode) : charByteOk (blankChar cc) := by
  left; constructor <;> norm_num [blankChar]

theorem clear_row_ok (w : Writer) (row : Nat) (h : bufferOk w) :
    bufferOk (w.clear_row row) := by
  intro r c
  rw [clear_row_buffer]
  split
  · exact charByteOk_blank _
  · exact h r c

theorem new_line_ok (w : Writer) (h : bufferOk w) : bufferOk (w.new_line) := by
  intro r c
  rw [new_line_buffer]
  split
  · exact charByteOk_blank _
  · split
    · exact h (r + 1) c
    · exact h r c

theorem write_byte_ok (w : Writer) (b : Nat)
    (hb : b = 10 ∨ (0x20 ≤ b ∧ b ≤ 0x7e) ∨ b = 0xfe) (h : bufferOk w) :
    bufferOk (w.write_byte b) := by
  by_cases h10 : b = 10
  · subst h10; rw [write_byte_newline]; exact new_line_ok w h
  · have hb2 : (0x20 ≤ b ∧ b ≤ 0x7e) ∨ b = 0xfe := by tauto
    by_cases hcol : w.column_position < BUFFER_WIDTH
    · intro r c
      rw [write_byte_buffer_no_wrap w b h10 hcol, bufWrite_apply]
      split
      · exact hb2
      · exact h r c
    · intro r c
      rw [write_byte_buffer_wrap w b h10 (Nat.not_lt.mp hcol), bufWrite_apply]
      split
      · exact hb2
      · exact new_line_ok w h r c

theorem classify_good (b : Nat) :
    classify b = 10 ∨ (0x20 ≤ classify b ∧ classify b ≤ 0x7e) ∨ classify b = 0xfe := by
  unfold classify
  split
  · rename_i hcond
    rcases hcond with hp | h10
    · right; left; exact hp
    · left; exact h10
  · right; right; rfl

theorem write_string_ok (w : Writer) (s : List Nat) (h : bufferOk w) :
    bufferOk (w.write_string s) := by
  induction s generalizing w with
  | nil => exact h
  | cons b t ih =>
    rw [write_string_cons]
    exact ih _ (write_byte_ok w (classify b) (classify_good b) h)

/-- `write_string` is exactly plain byte writing after the `classify`
substitution. -/
theorem write_string_eq_map_classify (w : Writer) (s : List Nat) :
    w.write_string s = writeBytes w (s.map classify) := by
  induction s generalizing w with
  | nil => rfl
  | cons b t ih =>
    rw [write_string_cons, List.map_cons]
    simp only [writeBytes, List.foldl_cons]
    exact ih _

/-- Writing a run of printable bytes that fits on the current row: the column
advances by the length, the color is unchanged, cells left of the starting
column (and all cells off the last row) are untouched, and cell `i` of the run
holds byte `i` with the writer's color. -/
theorem write_string_printable_run (s : List Nat) (w : Writer)
    (hp : ∀ b ∈ s, 0x20 ≤ b ∧ b ≤ 0x7e)
    (hfit : w.column_position + s.length ≤ BUFFER_WIDTH) :
    (w.write_string s).column_position = w.column_position + s.length ∧
    (w.write_string s).color_code = w.color_code ∧
    (∀ r c, (r = BUFFER_HEIGHT - 1 → c < w.column_position) →
      (w.write_string s).buffer r c = w.buffer r c) ∧
    (∀ i (hi : i < s.length),
      (w.write_string s).buffer (BUFFER_HEIGHT - 1) (w.column_position + i)
        = ⟨s.get ⟨i, hi⟩, w.color_code⟩) := by
  induction s generalizing w with
  | nil =>
    exact ⟨rfl, rfl, fun r c _ => rfl, fun i hi => absurd hi (by simp)⟩
  | cons b t ih =>
    have hbp : 0x20 ≤ b ∧ b ≤ 0x7e := hp b (List.mem_cons_self b t)
    have hb10 : b ≠ 10 := by omega
    have hclass : classify b = b := by unfold classify; rw [if_pos (Or.inl hbp)]
    have hfit2 : w.column_position + (t.length + 1) ≤ BUFFER_WIDTH := by
      simpa using hfit
    have hcol : w.column_position < BUFFER_WIDTH := by omega
    have hcol2 : (w.write_byte b).column_position = w.column_position + 1 := by
      rw [write_byte_column, if_neg hb10, if_pos hcol]
    have hcolor2 : (w.write_byte b).color_code = w.color_code := write_byte_color w b
    have hbuf2 : (w.write_byte b).buffer
        = bufWrite w.buffer (BUFFER_HEIGHT - 1) w.column_position ⟨b, w.color_code⟩ :=
      write_byte_buffer_no_wrap w b hb10 hcol
    have hstep : w.write_string (b :: t) = (w.write_byte b).write_string t := by
      rw [write_string_cons, hclass]
    obtain ⟨ihcol, ihcolor, ihpres, ihcell⟩ :=
      ih (w.write_byte b) (fun x hx => hp x (List.mem_cons_of_mem b hx))
        (by rw [hcol2]; omega)
    refine ⟨?_, ?_, ?_, ?_⟩
    · rw [hstep, ihcol, hcol2]
      simp only [List.length_cons]
      omega
    · rw [hstep, ihcolor, hcolor2]
    · intro r c hrc
      rw [hstep, ihpres r c (fun hr => by rw [hcol2]; exact Nat.lt_succ_of_lt (hrc hr)),
        hbuf2, bufWrite_apply]
      split
      · rename_i hcond
        exact absurd (hrc hcond.1) (by omega)
      · rfl
    · intro i hi
      cases i with
      | zero =>
        rw [hstep, ihpres (BUFFER_HEIGHT - 1) (w.column_position + 0)
          (fun _ => by rw [hcol2]; omega), hbuf2, bufWrite_apply]
        simp [List.get]
      | succ j =>
        have hj : j < t.length := by
          simp only [List.length_cons] at hi
          omega
        have hidx : w.column_position + (j + 1) = (w.write_byte b).column_position + j := by
          rw [hcol2]; omega
        rw [hstep, hidx, ihcell j hj, hcolor2]
        rfl

theorem applyOp_column_le (w : Writer) (op : Op)
    (h : w.column_position ≤ BUFFER_WIDTH) :
    (applyOp w op).column_position ≤ BUFFER_WIDTH := by
  cases op with
  | byte b => exact write_byte_column_le w b
  | str s => exact write_string_column_le w s h
  | line => simp [applyOp, new_line_column]

theorem runOps_column_le (ops : List Op) (w : Writer)
    (h : w.column_position ≤ BUFFER_WIDTH) :
    (runOps w ops).column_position ≤ BUFFER_WIDTH := by
  induction ops generalizing w with
  | nil => exact h
  | cons op t ih =>
    simp only [runOps, List.foldl_cons]
    exact ih (applyOp w op) (applyOp_column_le w op h)

theorem write_fmt_cons (w : Writer) (a : List Nat) (t : List (List Nat)) :
    w.write_fmt (a :: t) = (w.write_string a).write_fmt t := rfl

theorem write_fmt_ok (w : Writer) (frags : List (List Nat)) :
    (w.write_fmt frags).2 = Except.ok () := by
  induction frags generalizing w with
  | nil => rfl
  | cons a t ih => rw [write_fmt_cons]; exact ih _

/-! ### Claims -/

/-- C1 (counterexample): the claim says the effective grid is 80 columns by
25 rows, with the Writer writing into a last row of index 24, rows of 80
cells, line wrap after 80 bytes, and that the swapped constant names have no
effect on behaviour.  On the code, `BUFFER_WIDTH = 25` is the per-row cell
count: starting from column 0, the 26th printable byte already triggers a
wrap (`column_position` comes back to 1, not 26), and a write from column 0
lands in row 79, not row 24 (row 24 stays blank). -/
theorem c1_counterexample :
    BUFFER_WIDTH = 25 ∧ BUFFER_HEIGHT = 80 ∧
    (sampleWriter.write_string (List.replicate 25 65)).column_position = 25 ∧
    (sampleWriter.write_string (List.replicate 26 65)).column_position = 1 ∧
    ¬ ((sampleWriter.write_string (List.replicate 26 65)).column_position = 26) ∧
    (sampleWriter.write_byte 65).buffer 79 0 = ⟨65, sampleWriter.color_code⟩ ∧
    (sampleWriter.write_byte 65).buffer 24 0 = blankChar sampleWriter.color_code := by
  exact ⟨rfl, rfl, by decide, by decide, by decide, by decide, by decide⟩

/-- C1 (amended): the constant swap is a value swap, not a mere naming
inversion: the effective grid is 25 cells per row and 80 rows.  The Writer
writes into the last row of index 79, line wrap occurs after 25 bytes on a
row (a printable byte written at column ≥ 25 scrolls first and lands at
column 0 of row 79), and scrolling shifts all 80 rows (every row `r + 1`
moves up to row `r` for `r + 1 < 80`). -/
theorem c1_effective_geometry :
    BUFFER_WIDTH = 25 ∧ BUFFER_HEIGHT = 80 ∧
    (∀ (w : Writer) (b : Nat), b ≠ 10 → w.column_position < 25 →
      (w.write_byte b).buffer 79 w.column_position = ⟨b, w.color_code⟩ ∧
      (w.write_byte b).column_position = w.column_position + 1) ∧
    (∀ (w : Writer) (b : Nat), b ≠ 10 → 25 ≤ w.column_position →
      (w.write_byte b).buffer 79 0 = ⟨b, w.color_code⟩ ∧
      (w.write_byte b).column_position = 1) ∧
    (∀ (w : Writer) (r c : Nat), r + 1 < 80 → c < 25 →
      (w.new_line).buffer r c = w.buffer (r + 1) c) := by
  have hW : BUFFER_WIDTH = 25 := rfl
  have hH : BUFFER_HEIGHT = 80 := rfl
  refine ⟨rfl, rfl, ?_, ?_, ?_⟩
  · intro w b hb hcol
    constructor
    · rw [write_byte_buffer_no_wrap w b hb hcol, bufWrite_apply, if_pos ⟨rfl, rfl⟩]
    · rw [write_byte_column, if_neg hb, hW, if_pos hcol]
  · intro w b hb hcol
    constructor
    · rw [write_byte_buffer_wrap w b hb hcol, bufWrite_apply, if_pos ⟨rfl, rfl⟩]
    · rw [write_byte_column, if_neg hb, hW, if_neg (Nat.not_lt.mpr hcol)]
  · intro w r c hr hc
    rw [new_line_buffer]
    split
    · rename_i hcond
      exact absurd hcond.1 (by omega)
    · split
      · rfl
      · rename_i hcond2
        exact absurd ⟨by omega, by omega⟩ hcond2

/-- C1 witness for the amended theorem: a concrete no-wrap write lands at
row 79 at the current column. -/
theorem c1_effective_geometry_witness :
    (65 : Nat) ≠ 10 ∧ sampleWriter.column_position < 25 ∧
    (sampleWriter.write_byte 65).buffer 79 sampleWriter.column_position
      = ⟨65, sampleWriter.color_code⟩ :=
  ⟨by decide, by decide,
    (c1_effective_geometry.2.2.1 sampleWriter 65 (by decide) (by decide)).1⟩

/-- C2: `write_byte` on the newline byte just invokes `new_line` and writes
no cell; otherwise it scrolls first exactly when `column_position ≥ WIDTH`
(wrap-before-write), then performs a single cell write of the byte with the
current color into the last row at the current column and increments
`column_position`.  Each case shows at most one scroll and zero or one cell
writes. -/
theorem c2_write_byte_spec (w : Writer) (b : Nat) :
    (b = 10 → w.write_byte b = w.new_line) ∧
    (b ≠ 10 → w.column_position < BUFFER_WIDTH →
      w.write_byte b = { w with
        buffer := bufWrite w.buffer (BUFFER_HEIGHT - 1) w.column_position
          ⟨b, w.color_code⟩,
        column_position := w.column_position + 1 }) ∧
    (b ≠ 10 → BUFFER_WIDTH ≤ w.column_position →
      w.write_byte b = { w.new_line with
        buffer := bufWrite (w.new_line).buffer (BUFFER_HEIGHT - 1) 0
          ⟨b, w.color_code⟩,
        column_position := 1 }) :=
  ⟨fun h => by rw [h]; exact write_byte_newline w,
   fun h hc => write_byte_no_wrap w b h hc,
   fun h hc => write_byte_wrap w b h hc⟩

/-- C2 witness: the no-wrap case at a concrete writer and byte. -/
theorem c2_write_byte_spec_witness :
    (65 : Nat) ≠ 10 ∧ sampleWriter.column_position < BUFFER_WIDTH ∧
    sampleWriter.write_byte 65 = { sampleWriter with
      buffer := bufWrite sampleWriter.buffer (BUFFER_HEIGHT - 1)
        sampleWriter.column_position ⟨65, sampleWriter.color_code⟩,
      column_position := sampleWriter.column_position + 1 } :=
  ⟨by decide, by decide,
    (c2_write_byte_spec sampleWriter 65).2.1 (by decide) (by decide)⟩

/-- C3: after `new_line`, the content previously at row `r` (for every
`r ∈ [1, HEIGHT-1]`) appears at row `r - 1`, the new last row is entirely
blank cells (space with the Writer's current color, not a fixed default),
and `column_position` is 0.  The original row 0 is overwritten by row 1. -/
theorem c3_new_line_spec (w : Writer) :
    (∀ r c, 1 ≤ r → r ≤ BUFFER_HEIGHT - 1 → c < BUFFER_WIDTH →
      (w.new_line).buffer (r - 1) c = w.buffer r c) ∧
    (∀ c, c < BUFFER_WIDTH →
      (w.new_line).buffer (BUFFER_HEIGHT - 1) c = ⟨32, w.color_code⟩) ∧
    (w.new_line).column_position = 0 := by
  have hH : BUFFER_HEIGHT = 80 := rfl
  refine ⟨?_, ?_, new_line_column w⟩
  · intro r c h1 h2 hc
    rw [new_line_buffer]
    split
    · rename_i hcond
      exact absurd hcond.1 (by omega)
    · split
      · rename_i hcond2
        congr 1
        omega
      · rename_i hcond2
        exact absurd ⟨by omega, hc⟩ hcond2
  · intro c hc
    rw [new_line_buffer, if_pos ⟨rfl, hc⟩]
    rfl

/-- C3 witness: row 5 moves to row 4, and the last row is blanked, at a
concrete cell. -/
theorem c3_new_line_spec_witness :
    (1 ≤ (5 : Nat) ∧ (5 : Nat) ≤ BUFFER_HEIGHT - 1 ∧ (3 : Nat) < BUFFER_WIDTH) ∧
    (sampleWriter.new_line).buffer 4 3 = sampleWriter.buffer 5 3 ∧
    (sampleWriter.new_line).buffer (BUFFER_HEIGHT - 1) 0
      = ⟨32, sampleWriter.color_code⟩ :=
  ⟨⟨by decide, by decide, by decide⟩,
   (c3_new_line_spec sampleWriter).1 5 3 (by decide) (by decide) (by decide),
   (c3_new_line_spec sampleWriter).2.1 0 (by decide)⟩

/-- C4: `write_string` is exactly byte-wise writing after the classification
map: printable ASCII `0x20..=0x7e` and newline pass through unchanged, every
other byte is substituted by `0xfe` before reaching `write_byte`; hence the
cell rendered from an out-of-range byte holds `0xfe`, never the original
byte. -/
theorem c4_write_string_classification (w : Writer) (s : List Nat) :
    w.write_string s = writeBytes w (s.map classify) ∧
    (∀ b, ((0x20 ≤ b ∧ b ≤ 0x7e) ∨ b = 10) → classify b = b) ∧
    (∀ b, ¬ ((0x20 ≤ b ∧ b ≤ 0x7e) ∨ b = 10) → classify b = 0xfe) ∧
    (∀ b, ¬ ((0x20 ≤ b ∧ b ≤ 0x7e) ∨ b = 10) → w.column_position < BUFFER_WIDTH →
      (w.write_string [b]).buffer (BUFFER_HEIGHT - 1) w.column_position
        = ⟨0xfe, w.color_code⟩) := by
  refine ⟨write_string_eq_map_classify w s,
    fun b hb => by unfold classify; rw [if_pos hb],
    fun b hb => by unfold classify; rw [if_neg hb],
    fun b hb hcol => ?_⟩
  have hcl : classify b = 0xfe := by unfold classify; rw [if_neg hb]
  rw [write_string_cons, hcl, write_string_nil,
    write_byte_buffer_no_wrap w 0xfe (by decide) hcol, bufWrite_apply,
    if_pos ⟨rfl, rfl⟩]

/-- C4 witness: the control byte 0x01 renders as the placeholder 0xfe. -/
theorem c4_write_string_classification_witness :
    ¬ ((0x20 ≤ (1 : Nat) ∧ (1 : Nat) ≤ 0x7e) ∨ (1 : Nat) = 10) ∧
    (sampleWriter.write_string [1]).buffer (BUFFER_HEIGHT - 1)
      sampleWriter.column_position = ⟨0xfe, sampleWriter.color_code⟩ :=
  ⟨by decide,
    (c4_write_string_classification sampleWriter [1]).2.2.2 1 (by decide) (by decide)⟩

/-- C5 (counterexample): the claim promises the round trip for every string
without newline that is shorter than WIDTH, but a string containing a
non-printable byte (here the single byte 0) reads back as the placeholder
`0xfe`, not the original byte. -/
theorem c5_counterexample :
    ¬ ((10 : Nat) ∈ [(0 : Nat)]) ∧ [(0 : Nat)].length < BUFFER_WIDTH ∧
    sampleWriter.column_position = 0 ∧
    (sampleWriter.write_string [0]).buffer (BUFFER_HEIGHT - 1) 0
      = ⟨0xfe, sampleWriter.color_code⟩ ∧
    ¬ ((sampleWriter.write_string [0]).buffer (BUFFER_HEIGHT - 1) 0
      = ⟨0, sampleWriter.color_code⟩) := by
  exact ⟨by decide, by decide, rfl, by decide, by decide⟩

/-- C5 (amended): for every string of printable bytes (0x20–0x7E) shorter
than WIDTH, written from column 0, reading back the first `len(s)` cells of
the last row yields exactly the original bytes, each paired with the
Writer's active ColorCode. -/
theorem c5_printable_roundtrip (s : List Nat) (w : Writer)
    (hp : ∀ b ∈ s, 0x20 ≤ b ∧ b ≤ 0x7e)
    (hlen : s.length < BUFFER_WIDTH)
    (hcol : w.column_position = 0) :
    ∀ i (hi : i < s.length),
      (w.write_string s).buffer (BUFFER_HEIGHT - 1) i
        = ⟨s.get ⟨i, hi⟩, w.color_code⟩ := by
  intro i hi
  have h := (write_string_printable_run s w hp (by omega)).2.2.2 i hi
  rw [hcol] at h
  simpa using h

/-- C5 witness: writing "HI" from column 0 and reading back cell 1 yields
the byte of the letter I with the active color. -/
theorem c5_printable_roundtrip_witness :
    (sampleWriter.write_string [72, 73]).buffer (BUFFER_HEIGHT - 1) 1
      = ⟨73, sampleWriter.color_code⟩ :=
  c5_printable_roundtrip [72, 73] sampleWriter (by decide) (by decide) rfl 1 (by decide)

/-- C6: for every sequence of `write_byte`, `write_string` and `new_line`
calls starting from `column_position ≤ WIDTH`, the column stays in
`[0, WIDTH]` after every call (every prefix of a sequence is itself a
sequence), and it is 0 immediately after any scroll. -/
theorem c6_column_position_invariant (ops : List Op) (w : Writer)
    (h : w.column_position ≤ BUFFER_WIDTH) :
    (runOps w ops).column_position ≤ BUFFER_WIDTH ∧
    ∀ v : Writer, (v.new_line).column_position = 0 :=
  ⟨runOps_column_le ops w h, fun v => new_line_column v⟩

/-- C6 witness: a concrete call sequence with a wrap and a scroll keeps the
column within bounds. -/
theorem c6_column_position_invariant_witness :
    sampleWriter.column_position ≤ BUFFER_WIDTH ∧
    (runOps sampleWriter [Op.byte 65, Op.line, Op.str [72, 10, 73]]).column_position
      ≤ BUFFER_WIDTH :=
  ⟨by decide,
    (c6_column_position_invariant [Op.byte 65, Op.line, Op.str [72, 10, 73]]
      sampleWriter (by decide)).1⟩

/-- C7: `ColorCode::new(f, b)` packs the two 4-bit colors as
`(b << 4) | f`: the high nibble is the background, the low nibble the
foreground, and the result is a byte. -/
theorem c7_color_code_packing (f b : Color) :
    (ColorCode.new f b).code = ((b.toU8 <<< 4) ||| f.toU8) ∧
    (ColorCode.new f b).code >>> 4 = b.toU8 ∧
    (ColorCode.new f b).code % 16 = f.toU8 ∧
    (ColorCode.new f b).code < 256 := by
  cases f <;> cases b <;> exact ⟨rfl, rfl, rfl, by decide⟩

/-- C8: the `fmt::Write::write_str` implementation always returns `Ok(())`
(it just forwards to `write_string`), so driving the writer with any
successfully formatted fragments through `write_fmt` also yields `Ok(())`
and the unwrap in `_print` never panics. -/
theorem c8_write_str_ok (w : Writer) (s : List Nat) (frags : List (List Nat)) :
    w.write_str s = (w.write_string s, Except.ok ()) ∧
    (w.write_fmt frags).2 = Except.ok () :=
  ⟨rfl, write_fmt_ok w frags⟩

/-- C9: if every cell's character byte is printable or the placeholder
`0xfe`, this stays true of every cell after any `write_string`, `new_line`
or `clear_row` call. -/
theorem c9_char_byte_invariant (w : Writer) (h : ∀ r c, charByteOk (w.buffer r c)) :
    (∀ s r c, charByteOk ((w.write_string s).buffer r c)) ∧
    (∀ r c, charByteOk ((w.new_line).buffer r c)) ∧
    (∀ row r c, charByteOk ((w.clear_row row).buffer r c)) :=
  ⟨fun s r c => write_string_ok w s h r c,
   fun r c => new_line_ok w h r c,
   fun row r c => clear_row_ok w row h r c⟩

/-- C9 witness: starting from the all-blank sample writer (whose cells are
all spaces), writing a string with a control byte keeps every inspected cell
in the allowed byte set. -/
theorem c9_char_byte_invariant_witness :
    charByteOk (sampleWriter.buffer 0 0) ∧
    charByteOk ((sampleWriter.write_string [0, 65]).buffer (BUFFER_HEIGHT - 1) 0) := by
  have hok : ∀ r c, charByteOk (sampleWriter.buffer r c) := fun _ _ => charByteOk_blank _
  exact ⟨hok 0 0,
    (c9_char_byte_invariant sampleWriter hok).1 [0, 65] (BUFFER_HEIGHT - 1) 0⟩

/-- C10: `clear_row(row)` touches only row `row`: every cell of every other
row, the `column_position` and the `color_code` are unchanged. -/
theorem c10_clear_row_frame (w : Writer) (row : Nat) (_hrow : row < BUFFER_HEIGHT) :
    (∀ r c, r ≠ row → (w.clear_row row).buffer r c = w.buffer r c) ∧
    (w.clear_row row).column_position = w.column_position ∧
    (w.clear_row row).color_code = w.color_code := by
  refine ⟨?_, clear_row_column w row, clear_row_color w row⟩
  intro r c hr
  rw [clear_row_buffer, if_neg (fun hcond => hr hcond.1)]

/-- C10 witness: clearing row 3 leaves a cell of row 4 and the cursor state
unchanged, on a concrete writer. -/
theorem c10_clear_row_frame_witness :
    (3 : Nat) < BUFFER_HEIGHT ∧ (4 : Nat) ≠ (3 : Nat) ∧
    (sampleWriter.clear_row 3).buffer 4 0 = sampleWriter.buffer 4 0 ∧
    (sampleWriter.clear_row 3).column_position = sampleWriter.column_position :=
  ⟨by decide, by decide,
    (c10_clear_row_frame sampleWriter 3 (by decide)).1 4 0 (by decide),
    (c10_clear_row_frame sampleWriter 3 (by decide)).2.1⟩

end VgaBuffer
